import Mathlib

/-!
Verification development for the asynchronous Austin process supervisor
(src/austin/aio.py).  The Python source is shallowly embedded: byte/text
lines are lists of characters, the line-oriented standard-output stream is
a list of such lines (a readline call past the end of the list returns the
empty line, as Python readline does at EOF), and one whole run of
AsyncAustin.start is a pure function from a RunInput record to the trace
of externally observable events plus the final outcome.
-/

/-- Predicate matching the characters stripped by Python's argument-less
rstrip on bytes and ASCII str: space, tab, newline, carriage return,
vertical tab and form feed. -/
def isPySpace (c : Char) : Bool :=
  c = ' ' || c = '\t' || c = '\x0a' || c = '\x0d' || c = '\x0b' || c = '\x0c'

/-- Model of Python's s.rstrip() with no arguments: remove every trailing
whitespace character.  Used by _read_meta (aio.py line 36), the sample
loop (line 136) and _read_stderr (line 83). -/
def rstrip (l : List Char) : List Char := (l.reverse.dropWhile isPySpace).reverse

/-- Model of Python's s.partition(sep) for the two-character separator
made of a colon and a space (aio.py line 39): split at the first
occurrence of the separator; none when the separator does not occur. -/
def partitionSep : List Char → Option (List Char × List Char)
  | [] => none
  | c :: rest =>
    if c = ':' ∧ rest.take 1 = [' '] then some ([], rest.drop 1)
    else
      match partitionSep rest with
      | some (a, b) => some (c :: a, b)
      | none => none

/-- Boolean test that the colon-space separator does not occur in a list
of characters; it mirrors the occurrence test of partitionSep. -/
def sepFree : List Char → Bool
  | [] => true
  | c :: rest => if c = ':' ∧ rest.take 1 = [' '] then false else sepFree rest

/-- Metadata mapping: an association list of key/value pairs standing for
a Python dict with string keys and values (insertion-ordered, unique
keys). -/
abbrev Meta : Type := List (List Char × List Char)

/-- Model of Python dict assignment d[k] = v: replace the value at the
first matching key, or append a fresh binding at the end. -/
def dictSet (d : Meta) (k v : List Char) : Meta :=
  match d with
  | [] => [(k, v)]
  | (k₁, v₁) :: rest => if k₁ = k then (k, v) :: rest else (k₁, v₁) :: dictSet rest k v

/-- Model of Python dict lookup d[k] / d.get(k): value at the first
matching key. -/
def dictGet (d : Meta) (k : List Char) : Option (List Char) :=
  match d with
  | [] => none
  | (k₁, v) :: rest => if k₁ = k then some v else dictGet rest k

/-- Model of Python's d.update(m): assign every binding of m into d, in
m's order (aio.py lines 90 and 95). -/
def dictUpdate (d : Meta) (m : Meta) : Meta :=
  m.foldl (fun acc p => dictSet acc p.1 p.2) d

/-- Model of the key/value extraction of _read_meta (aio.py line 39):
drop the two marker characters, then partition on the first colon-space;
an absent separator yields the whole remainder as key and an empty
value. -/
def parseEntry (line : List Char) : List Char × List Char :=
  match partitionSep (line.drop 2) with
  | some (k, v) => (k, v)
  | none => (line.drop 2, [])

/-- Loop of _read_meta (aio.py lines 35-41) with the accumulated dict
made explicit: read a line, decode and rstrip it; stop (consuming the
line) unless it is non-empty and starts with the hash-space marker;
otherwise record the parsed entry and continue.  Returns the accumulated
mapping together with the part of the stream not yet consumed. -/
def readMetaAux (acc : Meta) : List (List Char) → Meta × List (List Char)
  | [] => (acc, [])
  | l :: rest =>
    let line := rstrip l
    if line ≠ [] ∧ line.take 2 = ['#', ' '] then
      readMetaAux (dictSet acc (parseEntry line).1 (parseEntry line).2) rest
    else (acc, rest)

/-- Model of _read_meta (aio.py lines 32-42), starting from the empty
dict. -/
def readMeta (stream : List (List Char)) : Meta × List (List Char) :=
  readMetaAux [] stream

/-- Test of the stop flag at the top of the sample loop. Modelled from the
spec: BaseAustin (outside this file's source) lets a caller clear the
running flag, and the stop is observed only at the per-line boundary; the
model records, as an optional iteration index, the first loop iteration
at which the cleared flag is seen. -/
def stopSeen (stopAt : Option Nat) (i : Nat) : Bool :=
  match stopAt with
  | none => false
  | some j => j ≤ i

/-- Model of the readline loop of AsyncAustin.start (aio.py lines
135-140): while the running flag holds, read a line, rstrip it, break on
an empty result, otherwise forward it.  Returns the forwarded samples
in order together with the part of the stream not yet consumed. -/
def sampleLoop (stopAt : Option Nat) : List (List Char) → Nat → List (List Char) × List (List Char)
  | [], _ => ([], [])
  | l :: rest, i =>
    if stopSeen stopAt i then ([], l :: rest)
    else
      let data := rstrip l
      if data = [] then ([], rest)
      else
        let s := sampleLoop stopAt rest (i + 1)
        (data :: s.1, s.2)

/-- Input of one modelled run of AsyncAustin.start, after a successful
spawn: the lines the child writes to its standard output, the optional
loop iteration at which an external stop request is observed, whether the
bounded diagnostic read times out, the raw diagnostic bytes read when it
does not, and the child's exit code. -/
structure RunInput where
  stdoutLines : List (List Char)
  stopAt : Option Nat
  stderrTimeout : Bool
  stderrRaw : List Char
  rcode : Int

/-- Externally observable events of one run, in order of occurrence:
header parsed (with the resulting mapping), ready callback invoked,
sample forwarded to the sink, footer parsed, terminate callback invoked
(with the accumulated mapping), diagnostic stream read, exit status
awaited. -/
inductive Event where
  | headerParsed (m : Meta)
  | ready
  | sample (l : List Char)
  | footerParsed (m : Meta)
  | terminate (m : Meta)
  | stderrRead (r : Option (List Char))
  | waited (c : Int)
deriving DecidableEq

/-- Errors a modelled run can surface, one constructor per raise site of
AsyncAustin.start after the spawn: protocolError is the AustinError with
message "Austin did not start properly" (line 125), terminated is
AustinTerminated carrying the drained diagnostic text (line 152), failed
is the AustinError carrying the exit code and the diagnostic text (line
153). -/
inductive RunError where
  | protocolError
  | terminated (stderr : Option (List Char))
  | failed (rcode : Int) (stderr : Option (List Char))
deriving DecidableEq

/-- Outcome of one run: normal return or a surfaced error. -/
inductive RunResult where
  | ok
  | err (e : RunError)
deriving DecidableEq

/-- Header mapping of a run: _read_header (aio.py lines 88-91) invokes
_read_meta on the primary stream from its start. -/
def headerOf (inp : RunInput) : Meta := (readMeta inp.stdoutLines).1

/-- Stream position after the header read: the terminator line has been
consumed. -/
def streamAfterHeader (inp : RunInput) : List (List Char) := (readMeta inp.stdoutLines).2

/-- Samples forwarded by the readline loop (aio.py lines 135-140); the
loop is reached only when the header mapping is non-empty (line 124). -/
def samplesOf (inp : RunInput) : List (List Char) :=
  if (headerOf inp).isEmpty then [] else (sampleLoop inp.stopAt (streamAfterHeader inp) 0).1

/-- Stream position after the sample loop: when the header was empty the
loop never ran and the position is the one left by the header read. -/
def streamAfterBody (inp : RunInput) : List (List Char) :=
  if (headerOf inp).isEmpty then streamAfterHeader inp
  else (sampleLoop inp.stopAt (streamAfterHeader inp) 0).2

/-- Footer mapping of a run: _read_footer (aio.py lines 93-96) invokes
_read_meta on the primary stream at its position after the sample
loop. -/
def footerOf (inp : RunInput) : Meta := (readMeta (streamAfterBody inp)).1

/-- Accumulated metadata passed to the terminate callback (aio.py line
146): header then footer merged, in that order, into the accumulating
dict. Modelled from the spec: the accumulating _meta dict lives in
BaseAustin (outside this file's source) and starts empty; lines 90 and 95
merge the header and the footer into it with dict.update. -/
def accMetaOf (inp : RunInput) : Meta :=
  dictUpdate (dictUpdate [] (headerOf inp)) (footerOf inp)

/-- Model of _read_stderr (aio.py lines 80-86): a bounded read of the
diagnostic stream that yields none on timeout and the decoded, rstripped
text otherwise. -/
def readStderrModel (inp : RunInput) : Option (List Char) :=
  if inp.stderrTimeout then none else some (rstrip inp.stderrRaw)

/-- Events produced by the body of the try block (aio.py lines 123-140):
nothing when the header is empty (the protocol error is raised before the
ready callback), otherwise the ready callback followed by one sample
event per forwarded line. -/
def bodyEventsOf (inp : RunInput) : List Event :=
  if (headerOf inp).isEmpty then [] else Event.ready :: (samplesOf inp).map Event.sample

/-- Events produced by the finally block (aio.py lines 142-149), in
source order: footer parse, terminate callback, diagnostic read, exit
status await. -/
def cleanupEventsOf (inp : RunInput) : List Event :=
  [Event.footerParsed (footerOf inp), Event.terminate (accMetaOf inp),
   Event.stderrRead (readStderrModel inp), Event.waited inp.rcode]

/-- Full event trace of one run of AsyncAustin.start after the spawn. -/
def traceOf (inp : RunInput) : List Event :=
  Event.headerParsed (headerOf inp) :: bodyEventsOf inp ++ cleanupEventsOf inp

/-- Outcome of one run (aio.py lines 123-153).  A Python exception raised
inside a finally block replaces any exception already propagating, so the
exit-code classification of lines 150-153 wins over the protocol error of
line 125: a non-zero exit code yields AustinTerminated for codes -15 and
15 and the generic AustinError otherwise, and only a zero exit code lets
the body's protocol error (empty header, line 124-125) surface. -/
def resultOf (inp : RunInput) : RunResult :=
  if inp.rcode ≠ 0 then
    RunResult.err
      (if inp.rcode = -15 ∨ inp.rcode = 15 then RunError.terminated (readStderrModel inp)
       else RunError.failed inp.rcode (readStderrModel inp))
  else if (headerOf inp).isEmpty then RunResult.err RunError.protocolError
  else RunResult.ok

/-- One whole modelled run of AsyncAustin.start: the observable event
trace and the outcome. -/
def runStart (inp : RunInput) : List Event × RunResult :=
  (traceOf inp, resultOf inp)

/-- Boolean recogniser of terminate-callback events. -/
def isTerminateEvt : Event → Bool
  | Event.terminate _ => true
  | _ => false

/-- Boolean recogniser of sample-forwarding events. -/
def isSampleEvt : Event → Bool
  | Event.sample _ => true
  | _ => false

/-- Well-formed metadata line built from a key/value pair: the hash-space
marker, the key, the colon-space separator, the value.  Used to state the
spec's properties about well-formed header and footer blocks. -/
def mkLine (p : List Char × List Char) : List Char :=
  '#' :: ' ' :: (p.1 ++ ':' :: ' ' :: p.2)

/-- Concrete input of the spec's section 8 scenario: two header lines,
a blank terminator, two sample lines, then end of stream; no stop
request, diagnostic read times out, exit code zero. -/
def scenarioInput : RunInput :=
  { stdoutLines := ["# key: value\x0a".data, "# foo: bar\x0a".data, "\x0a".data,
                    "sample-A\x0a".data, "sample-B\x0a".data],
    stopAt := none,
    stderrTimeout := true,
    stderrRaw := [],
    rcode := 0 }

/-- Character test for the line-ending characters newline and carriage
return only.  This follows the spec words "stripping trailing line-ending
whitespace" under their narrow reading; the code applies rstrip, which
strips every trailing whitespace character, and the two are compared in
the analysis of the metadata reader. -/
def isLineEnding (c : Char) : Bool := c = '\x0a' || c = '\x0d'

/-- Stripping of trailing line-ending characters only, per the spec
words; to be compared with rstrip, which the code actually applies. -/
def stripLineEnding (l : List Char) : List Char :=
  (l.reverse.dropWhile isLineEnding).reverse

/-- Concrete run input whose header is empty because the first line is
not metadata, with exit code 1 and captured diagnostic text. -/
def emptyHeaderFailInput : RunInput :=
  { stdoutLines := ["x\x0a".data], stopAt := none, stderrTimeout := false,
    stderrRaw := "err\x0a".data, rcode := 1 }

/-- Concrete run input whose header is empty because the stream ends
immediately, with exit code 0. -/
def emptyHeaderCleanInput : RunInput :=
  { stdoutLines := [], stopAt := none, stderrTimeout := true,
    stderrRaw := [], rcode := 0 }

/-- Concrete run input whose child exits with raw signal code 15 while
the bounded diagnostic read times out with no data. -/
def terminatedTimeoutInput : RunInput :=
  { stdoutLines := ["# a: b\x0a".data], stopAt := none, stderrTimeout := true,
    stderrRaw := [], rcode := 15 }

/-- Concrete run input whose child exits with the negative signal
encoding -15 while the bounded diagnostic read times out. -/
def terminatedNegInput : RunInput :=
  { stdoutLines := ["# c: d\x0a".data], stopAt := none, stderrTimeout := true,
    stderrRaw := [], rcode := -15 }

/-- Concrete run input whose header is empty while the child also exits
with a non-zero code and diagnostic text is captured. -/
def swallowedProtocolInput : RunInput :=
  { stdoutLines := [], stopAt := none, stderrTimeout := false,
    stderrRaw := "boom\x0a".data, rcode := 1 }

/-- Concrete run input with a good header and an external stop request
observed after one loop iteration. -/
def stopAfterOneInput : RunInput :=
  { stdoutLines := ["# a: b\x0a".data, "\x0a".data, "s1\x0a".data, "s2\x0a".data],
    stopAt := some 1, stderrTimeout := true, stderrRaw := [], rcode := 0 }

/-- Concrete run input with a good header, a generic failure exit code 2
and captured diagnostic text. -/
def failedInput : RunInput :=
  { stdoutLines := ["# k: v\x0a".data, "\x0a".data, "s\x0a".data], stopAt := none,
    stderrTimeout := false, stderrRaw := "bad\x0a".data, rcode := 2 }

/-- Length of dropWhile never exceeds the length of the input. -/
theorem dropWhileLenLe {α : Type} (p : α → Bool) (l : List α) :
    (l.dropWhile p).length ≤ l.length := by
  induction l with
  | nil => simp
  | cons c t ih =>
    rw [List.dropWhile_cons]
    by_cases h : p c = true
    · simp only [if_pos h]
      exact Nat.le_succ_of_le ih
    · simp [h]

/-- If dropWhile leaves a non-empty list unchanged, the predicate fails on
its head. -/
theorem dropWhile_fixed_head {α : Type} (p : α → Bool) (c : α) (t : List α)
    (h : (c :: t).dropWhile p = c :: t) : p c = false := by
  cases hp : p c with
  | false => rfl
  | true =>
    exfalso
    rw [List.dropWhile_cons, if_pos hp] at h
    have hlen := dropWhileLenLe p t
    rw [h] at hlen
    simp at hlen

/-- dropWhile is idempotent. -/
theorem dropWhile_dropWhile {α : Type} (p : α → Bool) (l : List α) :
    (l.dropWhile p).dropWhile p = l.dropWhile p := by
  induction l with
  | nil => rfl
  | cons c t ih =>
    by_cases hp : p c = true
    · simp only [List.dropWhile_cons, if_pos hp]
      exact ih
    · simp [List.dropWhile_cons, hp]

/-- rstrip is idempotent. -/
theorem rstrip_rstrip (l : List Char) : rstrip (rstrip l) = rstrip l := by
  unfold rstrip
  rw [List.reverse_reverse, dropWhile_dropWhile]

/-- A list with no trailing whitespace passes that property to each of
its suffixes. -/
theorem rstrip_fixed_of_suffix (l s : List Char) (hl : rstrip l = l) (hs : s <:+ l) :
    rstrip s = s := by
  unfold rstrip at hl ⊢
  have hrev : l.reverse.dropWhile isPySpace = l.reverse := by
    have h1 := congrArg List.reverse hl
    rwa [List.reverse_reverse] at h1
  have hpre : s.reverse <+: l.reverse := List.reverse_prefix.mpr hs
  cases hsr : s.reverse with
  | nil =>
    have : s = [] := by simpa using congrArg List.reverse hsr
    simp [this]
  | cons c t =>
    obtain ⟨u, hu⟩ := hpre
    rw [hsr] at hu
    have hlc : l.reverse = c :: (t ++ u) := by rw [← hu]; simp
    have hplc : isPySpace c = false := by
      apply dropWhile_fixed_head isPySpace c (t ++ u)
      rw [hlc] at hrev
      exact hrev
    rw [List.dropWhile_cons]
    rw [if_neg (by simp [hplc])]
    rw [← hsr]
    exact List.reverse_reverse s

/-- dropWhile skips over a block on which the predicate holds
everywhere. -/
theorem dropWhile_append_all {α : Type} (p : α → Bool) (a b : List α)
    (h : ∀ c ∈ a, p c = true) : (a ++ b).dropWhile p = b.dropWhile p := by
  induction a with
  | nil => rfl
  | cons c t ih =>
    have hc : p c = true := h c (by simp)
    rw [List.cons_append, List.dropWhile_cons, if_pos hc]
    exact ih (fun x hx => h x (by simp [hx]))

/-- Appending only whitespace does not change the rstripped value. -/
theorem rstrip_append_all (l t : List Char) (h : ∀ c ∈ t, isPySpace c = true) :
    rstrip (l ++ t) = rstrip l := by
  unfold rstrip
  rw [List.reverse_append]
  rw [dropWhile_append_all _ _ _ (fun c hc => h c (by simpa using hc))]

/-- Assigning key k makes lookup of k yield the assigned value. -/
theorem dictGet_dictSet_self (d : Meta) (k v : List Char) :
    dictGet (dictSet d k v) k = some v := by
  induction d with
  | nil => simp [dictSet, dictGet]
  | cons p rest ih =>
    obtain ⟨k₁, v₁⟩ := p
    by_cases h : k₁ = k
    · simp [dictSet, h, dictGet]
    · simp [dictSet, h, dictGet, ih]

/-- Assigning key k leaves lookups of other keys unchanged. -/
theorem dictGet_dictSet_ne (d : Meta) (k v k₁ : List Char) (h : k₁ ≠ k) :
    dictGet (dictSet d k v) k₁ = dictGet d k₁ := by
  induction d with
  | nil => simp [dictSet, dictGet, Ne.symm h]
  | cons p rest ih =>
    obtain ⟨k₂, v₂⟩ := p
    by_cases h₂ : k₂ = k
    · subst h₂
      simp [dictSet, dictGet, Ne.symm h]
    · simp [dictSet, h₂, dictGet, ih]

/-- Lookup of an absent key yields none. -/
theorem dictGet_eq_none (d : Meta) (k : List Char) (h : k ∉ d.map Prod.fst) :
    dictGet d k = none := by
  induction d with
  | nil => rfl
  | cons p rest ih =>
    obtain ⟨k₁, v₁⟩ := p
    simp only [List.map_cons, List.mem_cons] at h
    push_neg at h
    have hne : k₁ ≠ k := fun hh => h.1 hh.symm
    simp [dictGet, hne, ih h.2]

/-- Assigning a fresh key appends the binding at the end. -/
theorem dictSet_fresh (d : Meta) (k v : List Char) (h : k ∉ d.map Prod.fst) :
    dictSet d k v = d ++ [(k, v)] := by
  induction d with
  | nil => rfl
  | cons p rest ih =>
    obtain ⟨k₁, v₁⟩ := p
    simp only [List.map_cons, List.mem_cons] at h
    push_neg at h
    have hne : k₁ ≠ k := fun hh => h.1 hh.symm
    simp [dictSet, hne, ih h.2]

/-- Every binding of dictSet d k v is a binding of d or the assigned
pair. -/
theorem mem_dictSet (d : Meta) (k v : List Char) (p : List Char × List Char)
    (h : p ∈ dictSet d k v) : p ∈ d ∨ p = (k, v) := by
  induction d with
  | nil =>
    right
    simpa [dictSet] using h
  | cons q rest ih =>
    obtain ⟨k₁, v₁⟩ := q
    by_cases hk : k₁ = k
    · simp [dictSet, hk] at h
      rcases h with h | h
      · right
        simp [h]
      · left
        simp [h]
    · simp [dictSet, hk] at h
      rcases h with h | h
      · left
        simp [h]
      · rcases ih h with h₁ | h₁
        · left
          simp [h₁]
        · right
          exact h₁

/-- Lookup in d.update(f) for f with pairwise distinct keys: a key bound
in f gets f's value, any other key keeps its value from d. -/
theorem dictGet_dictUpdate (f : Meta) : ∀ (d : Meta) (k : List Char),
    (f.map Prod.fst).Nodup →
    dictGet (dictUpdate d f) k =
      match dictGet f k with
      | some v => some v
      | none => dictGet d k := by
  induction f with
  | nil =>
    intro d k _
    simp [dictUpdate, dictGet]
  | cons p f ih =>
    intro d k hnd
    obtain ⟨k₀, v₀⟩ := p
    simp only [List.map_cons, List.nodup_cons] at hnd
    have hstep : dictUpdate d ((k₀, v₀) :: f) = dictUpdate (dictSet d k₀ v₀) f := rfl
    rw [hstep, ih (dictSet d k₀ v₀) k hnd.2]
    by_cases hk : k₀ = k
    · subst hk
      have hf : dictGet f k₀ = none := dictGet_eq_none f k₀ hnd.1
      simp [hf, dictGet, dictGet_dictSet_self]
    · have hcons : dictGet ((k₀, v₀) :: f) k = dictGet f k := by simp [dictGet, hk]
      rw [hcons]
      cases hfk : dictGet f k with
      | some v => simp
      | none => simp [dictGet_dictSet_ne d k₀ v₀ k (fun hh => hk hh.symm)]

/-- Structure of a successful partition: the input is the key, the
colon-space separator, then the value. -/
theorem partitionSep_some (b : List Char) : ∀ k v : List Char,
    partitionSep b = some (k, v) → b = k ++ ':' :: ' ' :: v := by
  induction b with
  | nil =>
    intro k v h
    simp [partitionSep] at h
  | cons c rest ih =>
    intro k v h
    rw [partitionSep] at h
    by_cases hc : c = ':' ∧ rest.take 1 = [' ']
    · rw [if_pos hc] at h
      obtain ⟨hcc, hct⟩ := hc
      cases rest with
      | nil => simp at hct
      | cons r rs =>
        simp at hct
        simp at h
        obtain ⟨hk, hv⟩ := h
        subst hcc
        subst hct
        subst hk
        subst hv
        simp
    · rw [if_neg hc] at h
      cases hps : partitionSep rest with
      | none =>
        rw [hps] at h
        simp at h
      | some p =>
        obtain ⟨a, b₂⟩ := p
        rw [hps] at h
        simp at h
        obtain ⟨hk, hv⟩ := h
        have hb := ih a b₂ hps
        subst hb
        subst hk
        subst hv
        simp

/-- Partition finds the separator written after a separator-free key. -/
theorem partitionSep_build (k v : List Char) (h : sepFree k = true) :
    partitionSep (k ++ ':' :: ' ' :: v) = some (k, v) := by
  induction k with
  | nil => rfl
  | cons c t ih =>
    rw [sepFree] at h
    by_cases hc : c = ':' ∧ t.take 1 = [' ']
    · rw [if_pos hc] at h
      simp at h
    · rw [if_neg hc] at h
      have hrec := ih h
      rw [List.cons_append, partitionSep]
      have hcond : ¬(c = ':' ∧ (t ++ ':' :: ' ' :: v).take 1 = [' ']) := by
        cases t with
        | nil =>
          intro hx
          simp at hx
        | cons a t₂ =>
          intro hx
          exact hc ⟨hx.1, by simpa using hx.2⟩
      rw [if_neg hcond, hrec]

/-- Partition fails on a separator-free input. -/
theorem partitionSep_none (b : List Char) (h : sepFree b = true) : partitionSep b = none := by
  induction b with
  | nil => rfl
  | cons c t ih =>
    rw [sepFree] at h
    by_cases hc : c = ':' ∧ t.take 1 = [' ']
    · rw [if_pos hc] at h
      simp at h
    · rw [if_neg hc] at h
      rw [partitionSep, if_neg hc, ih h]

/-- Parsing a well-formed metadata line with a separator-free key
recovers the key and the value. -/
theorem parseEntry_mkLine (k v : List Char) (hk : sepFree k = true) :
    parseEntry (mkLine (k, v)) = (k, v) := by
  unfold parseEntry mkLine
  have hdrop : ('#' :: ' ' :: (k ++ ':' :: ' ' :: v)).drop 2 = k ++ ':' :: ' ' :: v := rfl
  rw [hdrop, partitionSep_build k v hk]

/-- A line that fails the metadata test terminates _read_meta: the
accumulated mapping is returned, the line is consumed, and the rest of
the stream is untouched. -/
theorem readMetaAux_stop (acc : Meta) (t : List Char) (rest : List (List Char))
    (h : ¬(rstrip t ≠ [] ∧ (rstrip t).take 2 = ['#', ' '])) :
    readMetaAux acc (t :: rest) = (acc, rest) := by
  show (if rstrip t ≠ [] ∧ (rstrip t).take 2 = ['#', ' '] then
      readMetaAux (dictSet acc (parseEntry (rstrip t)).1 (parseEntry (rstrip t)).2) rest
    else (acc, rest)) = (acc, rest)
  rw [if_neg h]

/-- A line that passes the metadata test makes _read_meta record its
entry and continue with the rest of the stream. -/
theorem readMetaAux_step (acc : Meta) (l : List Char) (rest : List (List Char))
    (h : rstrip l ≠ [] ∧ (rstrip l).take 2 = ['#', ' ']) :
    readMetaAux acc (l :: rest) =
      readMetaAux (dictSet acc (parseEntry (rstrip l)).1 (parseEntry (rstrip l)).2) rest := by
  show (if rstrip l ≠ [] ∧ (rstrip l).take 2 = ['#', ' '] then
      readMetaAux (dictSet acc (parseEntry (rstrip l)).1 (parseEntry (rstrip l)).2) rest
    else (acc, rest)) = _
  rw [if_pos h]

/-- Reading a block of lines whose rstripped forms are well-formed
metadata lines with pairwise distinct keys, followed by a terminator
line, appends exactly those entries to the accumulated mapping, consumes
the terminator, and leaves the rest of the stream untouched. -/
theorem readMetaAux_block (kvs : Meta) : ∀ (lines : List (List Char)) (acc : Meta)
    (t : List Char) (rest : List (List Char)),
    lines.map rstrip = kvs.map mkLine →
    (∀ p ∈ kvs, sepFree p.1 = true) →
    ((acc ++ kvs).map Prod.fst).Nodup →
    ¬(rstrip t ≠ [] ∧ (rstrip t).take 2 = ['#', ' ']) →
    readMetaAux acc (lines ++ t :: rest) = (acc ++ kvs, rest) := by
  induction kvs with
  | nil =>
    intro lines acc t rest hml _ _ ht
    have hnil : lines = [] := by
      cases lines with
      | nil => rfl
      | cons a b => simp at hml
    subst hnil
    simpa using readMetaAux_stop acc t rest ht
  | cons p kvs ih =>
    intro lines acc t rest hml hw hnd ht
    obtain ⟨k, v⟩ := p
    cases lines with
    | nil => simp at hml
    | cons l lines =>
      simp only [List.map_cons, List.cons.injEq] at hml
      have hl : rstrip l = mkLine (k, v) := hml.1
      have hp := hw (k, v) (by simp)
      have hacc : rstrip l ≠ [] ∧ (rstrip l).take 2 = ['#', ' '] := by
        rw [hl]
        exact ⟨by simp [mkLine], rfl⟩
      rw [List.cons_append,
          readMetaAux_step acc l (lines ++ t :: rest) hacc]
      rw [hl, parseEntry_mkLine k v hp]
      have hfresh : k ∉ acc.map Prod.fst := by
        have h₃ : ((acc ++ (k, v) :: kvs).map Prod.fst).Nodup := hnd
        rw [List.map_append, List.nodup_append] at h₃
        intro hmem
        exact h₃.2.2 hmem (by simp)
      rw [dictSet_fresh acc k v hfresh]
      have hnd₂ : (((acc ++ [(k, v)]) ++ kvs).map Prod.fst).Nodup := by
        rw [List.append_assoc]
        simpa using hnd
      have hres := ih lines (acc ++ [(k, v)]) t rest hml.2
        (fun q hq => hw q (by simp [hq])) hnd₂ ht
      rw [hres, List.append_assoc]
      simp

/-- The value produced by parseEntry on a line with no trailing
whitespace has itself no trailing whitespace. -/
theorem parseEntry_value_rstrip (line : List Char) (h : rstrip line = line) :
    rstrip (parseEntry line).2 = (parseEntry line).2 := by
  unfold parseEntry
  cases hps : partitionSep (line.drop 2) with
  | none => rfl
  | some p =>
    obtain ⟨k, v⟩ := p
    have hb := partitionSep_some (line.drop 2) k v hps
    have hsuff : v <:+ line := by
      have h₁ : v <:+ line.drop 2 := by
        rw [hb]
        exact ⟨k ++ [':', ' '], by simp⟩
      exact h₁.trans (List.drop_suffix 2 line)
    simpa using rstrip_fixed_of_suffix line v h hsuff

/-- Every value stored by the _read_meta loop carries no trailing
whitespace, because the whole line is rstripped before parsing. -/
theorem readMetaAux_value_rstrip (stream : List (List Char)) : ∀ (acc : Meta),
    (∀ p ∈ acc, rstrip p.2 = p.2) →
    ∀ p ∈ (readMetaAux acc stream).1, rstrip p.2 = p.2 := by
  induction stream with
  | nil =>
    intro acc hacc p hp
    exact hacc p hp
  | cons l rest ih =>
    intro acc hacc p hp
    by_cases hc : rstrip l ≠ [] ∧ (rstrip l).take 2 = ['#', ' ']
    · rw [readMetaAux_step acc l rest hc] at hp
      refine ih _ ?_ p hp
      intro q hq
      rcases mem_dictSet acc _ _ q hq with h₁ | h₁
      · exact hacc q h₁
      · rw [h₁]
        exact parseEntry_value_rstrip (rstrip l) (rstrip_rstrip l)
    · rw [readMetaAux_stop acc l rest hc] at hp
      exact hacc p hp

/-- Unfolding equation of the sample loop on a cons stream. -/
theorem sampleLoop_cons (stopAt : Option Nat) (l : List Char) (rest : List (List Char)) (i : Nat) :
    sampleLoop stopAt (l :: rest) i =
      if stopSeen stopAt i then ([], l :: rest)
      else if rstrip l = [] then ([], rest)
      else (rstrip l :: (sampleLoop stopAt rest (i + 1)).1, (sampleLoop stopAt rest (i + 1)).2) :=
  rfl

/-- When the stop flag has been seen, the loop exits at once and leaves
the stream untouched. -/
theorem sampleLoop_stop (j : Nat) (stream : List (List Char)) (i : Nat) (h : j ≤ i) :
    sampleLoop (some j) stream i = ([], stream) := by
  cases stream with
  | nil => rfl
  | cons l rest =>
    rw [sampleLoop_cons, if_pos (by simp [stopSeen, h])]

/-- With no stop request, the loop forwards the rstripped form of every
line of a block with non-blank rstripped content, then continues. -/
theorem sampleLoop_none_run (pre : List (List Char)) : ∀ (s : List (List Char)) (i : Nat),
    (∀ l ∈ pre, rstrip l ≠ []) →
    sampleLoop none (pre ++ s) i =
      (pre.map rstrip ++ (sampleLoop none s (i + pre.length)).1,
       (sampleLoop none s (i + pre.length)).2) := by
  induction pre with
  | nil =>
    intro s i _
    simp
  | cons l pre ih =>
    intro s i hp
    have hl : rstrip l ≠ [] := hp l (by simp)
    rw [List.cons_append, sampleLoop_cons, if_neg (by simp [stopSeen]), if_neg hl]
    rw [ih s (i + 1) (fun x hx => hp x (by simp [hx]))]
    have hlen : i + 1 + pre.length = i + (l :: pre).length := by
      simp [List.length_cons]
      omega
    rw [hlen]
    simp

/-- With no stop request, a line whose rstripped content is blank
terminates the loop; the samples are the rstripped lines before it and
the stream continues right after it. -/
theorem sampleLoop_none_term (pre : List (List Char)) (t : List Char) (rest : List (List Char))
    (hp : ∀ l ∈ pre, rstrip l ≠ []) (ht : rstrip t = []) :
    sampleLoop none (pre ++ t :: rest) 0 = (pre.map rstrip, rest) := by
  rw [sampleLoop_none_run pre (t :: rest) 0 hp, sampleLoop_cons,
      if_neg (by simp [stopSeen]), if_pos ht]
  simp

/-- With no stop request and no blank line, the loop forwards every line
and terminates at end of stream. -/
theorem sampleLoop_none_eof (pre : List (List Char)) (hp : ∀ l ∈ pre, rstrip l ≠ []) :
    sampleLoop none pre 0 = (pre.map rstrip, []) := by
  have h := sampleLoop_none_run pre [] 0 hp
  simpa [sampleLoop] using h

/-- A stop request observed after as many iterations as there are
preceding non-blank lines ends the loop right there: exactly those lines
are forwarded and the rest of the stream is untouched. -/
theorem sampleLoop_some_run (pre : List (List Char)) : ∀ (s : List (List Char)) (i : Nat),
    (∀ l ∈ pre, rstrip l ≠ []) →
    sampleLoop (some (i + pre.length)) (pre ++ s) i = (pre.map rstrip, s) := by
  induction pre with
  | nil =>
    intro s i _
    have h₀ : i + ([] : List (List Char)).length = i := by simp
    rw [h₀, List.nil_append]
    exact sampleLoop_stop i s i (le_refl i)
  | cons l pre ih =>
    intro s i hp
    have hl : rstrip l ≠ [] := hp l (by simp)
    simp only [List.length_cons, List.cons_append, List.map_cons]
    rw [sampleLoop_cons]
    have hns : ¬(stopSeen (some (i + (pre.length + 1))) i = true) := by
      simp only [stopSeen, decide_eq_true_eq]
      omega
    rw [if_neg hns, if_neg hl]
    have hlen : i + (pre.length + 1) = i + 1 + pre.length := by omega
    rw [hlen, ih s (i + 1) (fun x hx => hp x (by simp [hx]))]

/-- The loop never forwards more samples than the iteration budget left
before the stop index. -/
theorem sampleLoop_some_len (j : Nat) (stream : List (List Char)) : ∀ i : Nat,
    (sampleLoop (some j) stream i).1.length ≤ j - i := by
  induction stream with
  | nil =>
    intro i
    simp [sampleLoop]
  | cons l rest ih =>
    intro i
    rw [sampleLoop_cons]
    by_cases hstop : stopSeen (some j) i = true
    · simp [hstop]
    · rw [if_neg (by simp [hstop])]
      by_cases hl : rstrip l = []
      · simp [hl]
      · rw [if_neg hl]
        have hij : i < j := by
          simp [stopSeen] at hstop
          omega
        have hrec := ih (i + 1)
        simp only [List.length_cons]
        omega

/-- C6, counterexample.  The claim reads: a line is accepted iff after
stripping trailing line-ending whitespace it is non-empty and begins with
the hash-space marker, and a well-formed block of N key-value lines
yields exactly N entries.  Both parts fail on the code.  First input: the
line made of the marker and a newline; stripping only the line-ending
characters leaves the non-empty marker itself, so the claim predicts
acceptance, yet the reader (which strips every trailing whitespace
character, leaving only the hash) records no entry and treats the line
as the terminator.  Second input: a well-formed block of two key-value
lines sharing a key, followed by a terminator, yields one entry, not
two. -/
theorem C6_counterexample :
    (stripLineEnding ("# \x0a".data) = "# ".data ∧
      "# ".data ≠ ([] : List Char) ∧
      ("# ".data).take 2 = ['#', ' '] ∧
      readMeta ["# \x0a".data] = ([], [])) ∧
    readMeta ["# a: 1\x0a".data, "# a: 2\x0a".data, "x\x0a".data] =
      ([("a".data, "2".data)], []) := by
  decide

/-- C6, amended.  The metadata reader accepts a line iff after stripping
all trailing whitespace (not only line-ending characters) it is non-empty
and begins with the hash-space marker; each accepted line is split once
on the first colon-space into key (marker stripped) and value (empty
value when the separator is absent); a well-formed block of N key-value
lines with pairwise distinct keys followed by a terminator line returns
exactly those N entries; and exactly one non-metadata terminator line is
consumed and never returned to a subsequent read of the same stream. -/
theorem C6_amended :
    (∀ l : List Char, readMeta [l] =
      (if rstrip l ≠ [] ∧ (rstrip l).take 2 = ['#', ' ']
       then [parseEntry (rstrip l)] else [], [])) ∧
    (∀ (l : List Char) (rest : List (List Char)),
      ¬(rstrip l ≠ [] ∧ (rstrip l).take 2 = ['#', ' ']) →
      readMeta (l :: rest) = ([], rest)) ∧
    (∀ k v : List Char, sepFree k = true →
      parseEntry ('#' :: ' ' :: (k ++ ':' :: ' ' :: v)) = (k, v)) ∧
    (∀ b : List Char, sepFree b = true →
      parseEntry ('#' :: ' ' :: b) = (b, [])) ∧
    (∀ (kvs : Meta) (lines : List (List Char)) (t : List Char) (rest : List (List Char)),
      lines.map rstrip = kvs.map mkLine →
      (∀ p ∈ kvs, sepFree p.1 = true) →
      (kvs.map Prod.fst).Nodup →
      ¬(rstrip t ≠ [] ∧ (rstrip t).take 2 = ['#', ' ']) →
      readMeta (lines ++ t :: rest) = (kvs, rest)) := by
  refine ⟨?_, ?_, ?_, ?_, ?_⟩
  · intro l
    by_cases h : rstrip l ≠ [] ∧ (rstrip l).take 2 = ['#', ' ']
    · rw [if_pos h]
      show readMetaAux [] [l] = ([parseEntry (rstrip l)], [])
      rw [readMetaAux_step [] l [] h]
      rfl
    · rw [if_neg h]
      exact readMetaAux_stop [] l [] h
  · intro l rest h
    exact readMetaAux_stop [] l rest h
  · intro k v h
    exact parseEntry_mkLine k v h
  · intro b h
    unfold parseEntry
    have hdrop : ('#' :: ' ' :: b).drop 2 = b := rfl
    rw [hdrop, partitionSep_none b h]
  · intro kvs lines t rest h₁ h₂ h₃ h₄
    have h := readMetaAux_block kvs lines [] t rest h₁ h₂ (by simpa using h₃) h₄
    simpa using h

/-- C6, witness: the amended block clause applied to a concrete
two-entry header block followed by a blank terminator and one further
line. -/
theorem C6_witness :
    readMeta ["# key: value\x0a".data, "# foo: bar\x0a".data, "\x0a".data, "s\x0a".data] =
      ([("key".data, "value".data), ("foo".data, "bar".data)], ["s\x0a".data]) := by
  have h := C6_amended.2.2.2.2 [("key".data, "value".data), ("foo".data, "bar".data)]
    ["# key: value\x0a".data, "# foo: bar\x0a".data] ("\x0a".data) ["s\x0a".data]
    (by decide) (by decide) (by decide) (by decide)
  exact h

/-- C10: a metadata-block line consisting of the marker followed only by
whitespace is treated as the block terminator (no entry with an empty key
is recorded, and the remaining stream is exactly what follows the line),
because all trailing whitespace of the decoded line is stripped before
the marker test; and consequently no stored metadata value ever carries
trailing whitespace. -/
theorem C10_spec :
    (∀ (t : List Char) (rest : List (List Char)), (∀ c ∈ t, isPySpace c = true) →
      readMeta (('#' :: ' ' :: t) :: rest) = ([], rest)) ∧
    (∀ (stream : List (List Char)) (p : List Char × List Char),
      p ∈ (readMeta stream).1 → rstrip p.2 = p.2) := by
  constructor
  · intro t rest h
    apply readMetaAux_stop
    have hr : rstrip ('#' :: ' ' :: t) = ['#'] := by
      have h₁ : rstrip (['#'] ++ ' ' :: t) = rstrip ['#'] := by
        apply rstrip_append_all
        intro c hc
        rcases List.mem_cons.mp hc with h₂ | h₂
        · rw [h₂]
          rfl
        · exact h c h₂
      simpa using h₁
    rw [hr]
    decide
  · intro stream p hp
    exact readMetaAux_value_rstrip stream [] (by simp) p hp

/-- C10, witness: a marker-then-whitespace line is consumed as the
terminator of a block, and a concrete stored value is fixed by
rstrip. -/
theorem C10_witness :
    readMeta (('#' :: ' ' :: "  \x0a".data) :: ["x\x0a".data]) = ([], ["x\x0a".data]) ∧
    rstrip ("value".data) = "value".data :=
  ⟨C10_spec.1 ("  \x0a".data) ["x\x0a".data] (by decide),
   C10_spec.2 ["# k: value\x0a".data] ("k".data, "value".data) (by decide)⟩

/-- C7: when a header mapping and then a footer mapping are merged, in
that order, into the same accumulating metadata dict (which starts
empty), a key bound in both ends up with the footer's value (last write
wins), and a key bound in only one of the two keeps its single value. -/
theorem C7_spec (h f : Meta) (k : List Char)
    (hh : (h.map Prod.fst).Nodup) (hf : (f.map Prod.fst).Nodup) :
    (∀ v, dictGet f k = some v →
      dictGet (dictUpdate (dictUpdate [] h) f) k = some v) ∧
    (dictGet f k = none →
      dictGet (dictUpdate (dictUpdate [] h) f) k = dictGet h k) := by
  have hbase : dictGet (dictUpdate [] h) k = dictGet h k := by
    rw [dictGet_dictUpdate h [] k hh]
    cases hk : dictGet h k <;> rfl
  have hmain := dictGet_dictUpdate f (dictUpdate [] h) k hf
  constructor
  · intro v hv
    rw [hmain, hv]
  · intro hv
    rw [hmain, hv, hbase]

/-- C7, witness: a concrete header and footer sharing the key b; the
accumulated mapping holds the footer's value at b and the header's value
at the header-only key a. -/
theorem C7_witness :
    dictGet (dictUpdate (dictUpdate [] [("a".data, "1".data), ("b".data, "2".data)])
      [("b".data, "3".data)]) ("b".data) = some ("3".data) ∧
    dictGet (dictUpdate (dictUpdate [] [("a".data, "1".data), ("b".data, "2".data)])
      [("b".data, "3".data)]) ("a".data) = some ("1".data) := by
  constructor
  · exact (C7_spec [("a".data, "1".data), ("b".data, "2".data)] [("b".data, "3".data)]
      ("b".data) (by decide) (by decide)).1 ("3".data) (by decide)
  · have h := (C7_spec [("a".data, "1".data), ("b".data, "2".data)] [("b".data, "3".data)]
      ("a".data) (by decide) (by decide)).2 (by decide)
    rw [h]
    decide

/-- C9, counterexample.  The claim reads: each non-empty line is
forwarded with only its trailing newline stripped and its content
otherwise verbatim, and the loop terminates exactly on an empty read
(empty line or stream closure) or a stop request.  Both parts fail on the
code.  First input: the line with content a, a trailing space and a
newline is forwarded as the single character a — the trailing space is
stripped too, so the forwarded record is not the newline-stripped
original.  Second input: a line of only spaces and a newline is neither
empty nor the stream closure, yet it terminates the loop, and the
following line b is never forwarded. -/
theorem C9_counterexample :
    sampleLoop none ["a \x0a".data] 0 = (["a".data], []) ∧
    "a".data ≠ "a ".data ∧
    sampleLoop none ["  \x0a".data, "b\x0a".data] 0 = ([], ["b\x0a".data]) ∧
    "  \x0a".data ≠ ([] : List Char) := by
  decide

/-- C9, amended.  Each line whose rstripped content is non-empty is
forwarded exactly once, in stream order, with all trailing whitespace
stripped (not only the newline); the loop terminates exactly when the
rstripped content of a read line is empty (stream closure, empty line, or
whitespace-only line) or a stop request has been observed, and a stop
observed after j iterations leaves the rest of the stream unread. -/
theorem C9_amended :
    (∀ (pre : List (List Char)) (t : List Char) (rest : List (List Char)),
      (∀ l ∈ pre, rstrip l ≠ []) → rstrip t = [] →
      sampleLoop none (pre ++ t :: rest) 0 = (pre.map rstrip, rest)) ∧
    (∀ stream : List (List Char), (∀ l ∈ stream, rstrip l ≠ []) →
      sampleLoop none stream 0 = (stream.map rstrip, [])) ∧
    (∀ (pre s : List (List Char)),
      (∀ l ∈ pre, rstrip l ≠ []) →
      sampleLoop (some pre.length) (pre ++ s) 0 = (pre.map rstrip, s)) := by
  refine ⟨sampleLoop_none_term, sampleLoop_none_eof, ?_⟩
  intro pre s h
  have h₁ := sampleLoop_some_run pre s 0 h
  simpa using h₁

/-- C9, witness: a concrete stream of two sample lines, a blank
terminator and one further line; both samples are forwarded rstripped
and the terminator ends the loop. -/
theorem C9_witness :
    sampleLoop none ["s1\x0a".data, "s2\x0a".data, "\x0a".data, "f\x0a".data] 0 =
      (["s1".data, "s2".data], ["f\x0a".data]) := by
  have h := C9_amended.1 ["s1\x0a".data, "s2\x0a".data] ("\x0a".data) ["f\x0a".data]
    (by decide) (by decide)
  have e₁ : ["s1\x0a".data, "s2\x0a".data] ++ "\x0a".data :: ["f\x0a".data] =
      ["s1\x0a".data, "s2\x0a".data, "\x0a".data, "f\x0a".data] := rfl
  have e₂ : ["s1\x0a".data, "s2\x0a".data].map rstrip = ["s1".data, "s2".data] := by decide
  rw [e₁, e₂] at h
  exact h

/-- Sample events alone never satisfy the terminate-event test. -/
theorem filter_terminate_map_sample (xs : List (List Char)) :
    (xs.map Event.sample).filter isTerminateEvt = [] := by
  induction xs with
  | nil => rfl
  | cons a b ih => simp [isTerminateEvt, ih]

/-- Body events of a run contain no terminate event. -/
theorem bodyEventsOf_filter_terminate (inp : RunInput) :
    (bodyEventsOf inp).filter isTerminateEvt = [] := by
  unfold bodyEventsOf
  by_cases h : (headerOf inp).isEmpty = true
  · simp [h]
  · simp [h, isTerminateEvt, filter_terminate_map_sample]

/-- C1: on every modelled run (every run that reaches the cleanup block;
a spawn failure never does and is outside the model), the terminate
callback is invoked exactly once, right after the footer parse, and the
mapping passed to it is the accumulated metadata obtained by merging the
header and then the footer into the initially empty dict.  In the spec's
section 8 scenario the footer parse at end of stream returns the empty
mapping and the callback still receives the two header entries. -/
theorem C1_spec :
    (∀ inp : RunInput,
      (runStart inp).1.filter isTerminateEvt = [Event.terminate (accMetaOf inp)] ∧
      (runStart inp).1 =
        (Event.headerParsed (headerOf inp) :: bodyEventsOf inp
            ++ [Event.footerParsed (footerOf inp)])
          ++ Event.terminate (accMetaOf inp)
            :: [Event.stderrRead (readStderrModel inp), Event.waited inp.rcode] ∧
      accMetaOf inp = dictUpdate (dictUpdate [] (headerOf inp)) (footerOf inp)) ∧
    footerOf scenarioInput = [] ∧
    accMetaOf scenarioInput = [("key".data, "value".data), ("foo".data, "bar".data)] := by
  refine ⟨fun inp => ⟨?_, ?_, rfl⟩, by decide, by decide⟩
  · show (traceOf inp).filter isTerminateEvt = _
    unfold traceOf cleanupEventsOf
    simp [List.filter_append, bodyEventsOf_filter_terminate, isTerminateEvt]
  · show traceOf inp = _
    unfold traceOf cleanupEventsOf
    simp

/-- C1, witness: the exactly-once clause applied to the section 8
scenario input. -/
theorem C1_witness :
    (runStart scenarioInput).1.filter isTerminateEvt =
      [Event.terminate (accMetaOf scenarioInput)] :=
  (C1_spec.1 scenarioInput).1

/-- C8: on every modelled run, header parsing completes (or is
determined empty) before any sample is forwarded — the trace starts with
the header-parsed event and body events are only the ready callback and
samples; footer parsing and the terminate callback both occur before the
exit status is awaited — they sit earlier in the fixed cleanup sequence;
and the exit-status await is the last event of the trace, so the terminal
outcome is reported only after it, even when that outcome is an error. -/
theorem C8_spec (inp : RunInput) :
    (runStart inp).1 =
      Event.headerParsed (headerOf inp) :: bodyEventsOf inp ++
        [Event.footerParsed (footerOf inp), Event.terminate (accMetaOf inp),
         Event.stderrRead (readStderrModel inp), Event.waited inp.rcode] ∧
    (∀ e ∈ bodyEventsOf inp, e = Event.ready ∨ ∃ l, e = Event.sample l) ∧
    (runStart inp).1.getLast? = some (Event.waited inp.rcode) := by
  refine ⟨rfl, ?_, ?_⟩
  · intro e he
    unfold bodyEventsOf at he
    by_cases h : (headerOf inp).isEmpty = true
    · rw [if_pos h] at he
      simp at he
    · rw [if_neg h] at he
      rcases List.mem_cons.mp he with h₁ | h₁
      · left
        exact h₁
      · right
        rcases List.mem_map.mp h₁ with ⟨l, _, hl⟩
        exact ⟨l, hl.symm⟩
  · show (traceOf inp).getLast? = _
    have hsplit : traceOf inp =
        (Event.headerParsed (headerOf inp) :: bodyEventsOf inp) ++ cleanupEventsOf inp := by
      simp [traceOf]
    rw [hsplit, List.getLast?_append]
    rfl

/-- C8, witness: the exit-status await closes the trace of the section 8
scenario. -/
theorem C8_witness :
    (runStart scenarioInput).1.getLast? = some (Event.waited 0) :=
  (C8_spec scenarioInput).2.2

/-- C4: on every modelled run, a sample event in the trace implies the
header was non-empty (the abstract Running state is entered only after a
non-empty header); every sample event lies in the body segment of the
trace, which follows the header-parsed event and precedes the cleanup
segment (so no sample is forwarded after end-of-stream or a stop request
has moved the run into Draining); the cleanup segment contains no sample;
and a stop request observed at iteration j bounds the number of forwarded
samples by j. -/
theorem C4_spec (inp : RunInput) :
    ((∃ l, Event.sample l ∈ (runStart inp).1) → (headerOf inp).isEmpty = false) ∧
    (runStart inp).1 =
      Event.headerParsed (headerOf inp) :: bodyEventsOf inp ++ cleanupEventsOf inp ∧
    (∀ l, Event.sample l ∉ cleanupEventsOf inp) ∧
    (∀ l, Event.sample l ∈ (runStart inp).1 → Event.sample l ∈ bodyEventsOf inp) ∧
    (∀ j, inp.stopAt = some j → (samplesOf inp).length ≤ j) := by
  have hclean : ∀ l, Event.sample l ∉ cleanupEventsOf inp := by
    intro l
    simp [cleanupEventsOf]
  have hmem : ∀ l, Event.sample l ∈ (runStart inp).1 → Event.sample l ∈ bodyEventsOf inp := by
    intro l hl
    have h₀ : Event.sample l ∈
        Event.headerParsed (headerOf inp) :: bodyEventsOf inp ++ cleanupEventsOf inp := hl
    rcases List.mem_cons.mp h₀ with h | h
    · exact absurd h (by simp)
    · rcases List.mem_append.mp h with h | h
      · exact h
      · exact absurd h (hclean l)
  refine ⟨?_, rfl, hclean, hmem, ?_⟩
  · rintro ⟨l, hl⟩
    cases hh : (headerOf inp).isEmpty with
    | false => rfl
    | true =>
      have hb : bodyEventsOf inp = [] := by simp [bodyEventsOf, hh]
      have h₂ := hmem l hl
      rw [hb] at h₂
      simp at h₂
  · intro j hj
    unfold samplesOf
    by_cases h : (headerOf inp).isEmpty = true
    · simp [h]
    · rw [if_neg h, hj]
      have h₁ := sampleLoop_some_len j (streamAfterHeader inp) 0
      simpa using h₁

/-- C4, witness: the scenario run has samples, hence a non-empty header;
and the stop-after-one run forwards at most one sample. -/
theorem C4_witness :
    (headerOf scenarioInput).isEmpty = false ∧
    (samplesOf stopAfterOneInput).length ≤ 1 := by
  constructor
  · exact (C4_spec scenarioInput).1 ⟨"sample-A".data, by decide⟩
  · exact (C4_spec stopAfterOneInput).2.2.2.2 1 rfl

/-- C2, counterexample.  The claim reads: for every input whose header
block is empty, start fails with the protocol error whose message says it
did not start properly.  On the code this holds only when the child's
exit code is zero: an exception raised in the finally block replaces the
in-flight one, so with exit code 1 the surfaced error is the generic
exit-code error, not the protocol error. -/
theorem C2_counterexample :
    headerOf emptyHeaderFailInput = [] ∧
    (runStart emptyHeaderFailInput).2 =
      RunResult.err (RunError.failed 1 (some ("err".data))) ∧
    (runStart emptyHeaderFailInput).2 ≠ RunResult.err RunError.protocolError := by
  decide

/-- C2, amended.  For every input whose header block is empty, the ready
callback is never invoked, the cleanup sequence (footer parse, terminate
callback, diagnostic drain, process wait) still executes, and start
fails: with the protocol error when the child's exit code is zero, and
otherwise with the error derived from the exit code, which replaces the
protocol error. -/
theorem C2_amended (inp : RunInput) (h : headerOf inp = []) :
    Event.ready ∉ (runStart inp).1 ∧
    (runStart inp).1 = Event.headerParsed [] :: cleanupEventsOf inp ∧
    (runStart inp).2 ≠ RunResult.ok ∧
    (inp.rcode = 0 → (runStart inp).2 = RunResult.err RunError.protocolError) := by
  have hE : (headerOf inp).isEmpty = true := by simp [h]
  have hb : bodyEventsOf inp = [] := by simp [bodyEventsOf, hE]
  refine ⟨?_, ?_, ?_, ?_⟩
  · show Event.ready ∉ traceOf inp
    unfold traceOf
    rw [hb]
    simp [cleanupEventsOf]
  · show traceOf inp = _
    unfold traceOf
    rw [hb, h]
    simp
  · show resultOf inp ≠ RunResult.ok
    unfold resultOf
    by_cases hr : inp.rcode ≠ 0
    · rw [if_pos hr]
      simp
    · rw [if_neg hr, if_pos hE]
      simp
  · intro h₀
    show resultOf inp = _
    unfold resultOf
    rw [if_neg (by simp [h₀]), if_pos hE]

/-- C2, witness: the empty-stream input with exit code zero surfaces the
protocol error and never invokes the ready callback. -/
theorem C2_witness :
    Event.ready ∉ (runStart emptyHeaderCleanInput).1 ∧
    (runStart emptyHeaderCleanInput).2 = RunResult.err RunError.protocolError := by
  have h := C2_amended emptyHeaderCleanInput (by decide)
  exact ⟨h.1, h.2.2.2 rfl⟩

/-- C3, counterexample.  The claim reads: when the exit code encodes the
shutdown signal, the run fails with the terminated error carrying the
captured diagnostic text, possibly the empty string when the diagnostic
read timed out with no data.  On the code a timed-out diagnostic read
yields the absence marker None, not the empty string, and that marker is
what the terminated error carries. -/
theorem C3_counterexample :
    terminatedTimeoutInput.stderrTimeout = true ∧
    (runStart terminatedTimeoutInput).2 = RunResult.err (RunError.terminated none) ∧
    RunError.terminated (none : Option (List Char)) ≠ RunError.terminated (some []) := by
  decide

/-- C3, amended.  For every run with a non-empty header: exit code 0
returns normally; an exit code equal to the shutdown signal in either
encoding (-15 or 15) fails with the terminated error carrying the
drained diagnostic value; any other non-zero code fails with the generic
error carrying the code and the diagnostic value.  The diagnostic value
is the rstripped captured text, or the absence marker None (not the
empty string) when the bounded read timed out. -/
theorem C3_amended (inp : RunInput) (h : (headerOf inp).isEmpty = false) :
    (runStart inp).2 =
      (if inp.rcode = 0 then RunResult.ok
       else if inp.rcode = -15 ∨ inp.rcode = 15 then
         RunResult.err (RunError.terminated (readStderrModel inp))
       else RunResult.err (RunError.failed inp.rcode (readStderrModel inp))) ∧
    (inp.stderrTimeout = true → readStderrModel inp = none) ∧
    (inp.stderrTimeout = false → readStderrModel inp = some (rstrip inp.stderrRaw)) := by
  refine ⟨?_, fun ht => by simp [readStderrModel, ht], fun ht => by simp [readStderrModel, ht]⟩
  show resultOf inp = _
  unfold resultOf
  by_cases h₀ : inp.rcode = 0
  · simp [h₀, h]
  · by_cases hc : inp.rcode = -15 ∨ inp.rcode = 15
    · simp [h₀, hc]
    · simp [h₀, hc]

/-- C3, witness: a run with a good header whose child exits with the
negative signal encoding while the diagnostic read times out fails with
the terminated error carrying None. -/
theorem C3_witness :
    (runStart terminatedNegInput).2 = RunResult.err (RunError.terminated none) ∧
    readStderrModel terminatedNegInput = none := by
  have h := C3_amended terminatedNegInput (by decide)
  constructor
  · rw [h.1]
    decide
  · exact h.2.1 rfl

/-- C5, counterexample.  The claim reads: every error kind the run
produces is surfaced and none is silently swallowed; in particular a
protocol error from an empty header still reaches the caller even when
the child's exit code is non-zero.  On the code the finally block's
exit-code error replaces the propagating protocol error: with an empty
header and exit code 1 the caller sees only the generic exit-code
error. -/
theorem C5_counterexample :
    headerOf swallowedProtocolInput = [] ∧
    swallowedProtocolInput.rcode ≠ 0 ∧
    (runStart swallowedProtocolInput).2 =
      RunResult.err (RunError.failed 1 (some ("boom".data))) ∧
    (runStart swallowedProtocolInput).2 ≠ RunResult.err RunError.protocolError := by
  decide

/-- C5, amended.  Cleanup always executes and its events sit in the trace
before the outcome is determined; the run returns normally exactly when
the exit code is zero and the header was non-empty; the protocol error is
surfaced exactly when the exit code is zero and the header was empty; and
a non-zero exit code always surfaces the exit-code classification error
(terminated for the shutdown signal in either encoding, generic failure
otherwise), replacing any error raised in the body. -/
theorem C5_amended (inp : RunInput) :
    (runStart inp).1 =
      Event.headerParsed (headerOf inp) :: bodyEventsOf inp ++ cleanupEventsOf inp ∧
    ((runStart inp).2 = RunResult.ok ↔
      (inp.rcode = 0 ∧ (headerOf inp).isEmpty = false)) ∧
    ((runStart inp).2 = RunResult.err RunError.protocolError ↔
      (inp.rcode = 0 ∧ (headerOf inp).isEmpty = true)) ∧
    (inp.rcode ≠ 0 → (runStart inp).2 =
      RunResult.err (if inp.rcode = -15 ∨ inp.rcode = 15
        then RunError.terminated (readStderrModel inp)
        else RunError.failed inp.rcode (readStderrModel inp))) := by
  refine ⟨rfl, ?_, ?_, ?_⟩
  · show resultOf inp = RunResult.ok ↔ _
    unfold resultOf
    by_cases h₀ : inp.rcode = 0
    · by_cases hE : (headerOf inp).isEmpty = true
      · simp [h₀, hE]
      · simp [h₀, hE]
    · simp [h₀]
  · show resultOf inp = RunResult.err RunError.protocolError ↔ _
    unfold resultOf
    by_cases h₀ : inp.rcode = 0
    · by_cases hE : (headerOf inp).isEmpty = true
      · simp [h₀, hE]
      · simp [h₀, hE]
    · by_cases hc : inp.rcode = -15 ∨ inp.rcode = 15
      · simp [h₀, hc]
      · simp [h₀, hc]
  · intro h₀
    show resultOf inp = _
    unfold resultOf
    rw [if_pos h₀]

/-- C5, witness: a run with a good header and exit code 2 surfaces the
generic failure error carrying the code and the rstripped diagnostic
text. -/
theorem C5_witness :
    (runStart failedInput).2 = RunResult.err (RunError.failed 2 (some ("bad".data))) := by
  have h := (C5_amended failedInput).2.2.2 (by decide)
  rw [h]
  decide
